import Mathlib

/-!
Verification of the `lumi_type` dictation engine core (`src-tauri/src/core`).

Shallow embedding conventions:
* Rust `i16`/`i32` values are modelled as `Int`; the embedding keeps the
  source's own arithmetic (Rust `i32` division truncates toward zero, which is
  `Int.tdiv`).  No intermediate value in the modelled code paths can overflow
  its machine width, so no wrap-around is modelled.
* Rust `f32` arithmetic is modelled over `ℚ`; where nothing depends on
  rounding this is done exactly, and where a property hinges on the rounding
  itself (the resampler's index arithmetic) IEEE-754 binary32
  round-to-nearest-even is modelled explicitly (`roundF32` below).
* Rust `String`/`&str` values are modelled as `List Char` (sequences of
  Unicode scalar values); byte-oriented operations on UTF-8 are modelled with
  `Char.utf8Size`.
* Mutation is modelled by explicit state passing: a Rust method
  `fn f(&mut self, ...) -> B` becomes a Lean function `A → ... → B × A`.
* Foreign calls (the Porcupine library, whisper decoding, `cpal` stream
  startup) are modelled as oracle parameters.
* Loops whose Rust form terminates because the scrutinised buffer shrinks by
  at least one element per iteration are written with an explicit fuel
  argument initialised to the buffer length, so that they stay executable by
  kernel reduction.
-/

namespace LumiType

/-! ### state.rs: dictation states, commands, events, the state machine -/

/-- The `DictationState` enum of state.rs (lines 5-11). -/
inductive DictationState
  | idle
  | listening
  | dictating
  | stopping
deriving DecidableEq, Repr, Fintype

/-- The `TrayState` enum of state.rs (lines 13-18). -/
inductive TrayState
  | idle
  | listening
  | dictating
deriving DecidableEq, Repr, Fintype

/-- The `TranscriptionModel` enum of mod.rs (lines 31-36). -/
inductive TranscriptionModel
  | baseEn
  | tinyEn
deriving DecidableEq, Repr, Fintype

/-- The `PermissionStatus` struct of permissions.rs (lines 5-9). -/
structure PermissionStatus where
  microphone : Bool
  accessibility : Bool
deriving DecidableEq, Repr, Fintype

/-- The `AudioFrame` struct of mod.rs (lines 24-29): mono `i16` samples, the
sample rate in Hz, and the peak amplitude (an `f32`, modelled as `ℚ`). -/
structure AudioFrame where
  samples : List Int
  sample_rate : Nat
  peak : ℚ
deriving DecidableEq, Repr

/-- The `EngineCommand` enum exactly as declared in state.rs (lines 20-34).
Note that this declaration has no `UpdateMicrophone` variant, although
mod.rs (lines 101 and 224) constructs and matches `EngineCommand::UpdateMicrophone`. -/
inductive EngineCommand
  | audioFrame (frame : AudioFrame)
  | wakeDetected
  | pushToTalkTriggered
  | silenceTimeout
  | transcriptionDelta (delta : List Char)
  | transcriptionFinished
  | cancelDictation
  | undoLastDictation
  | setEnabled (enabled : Bool)
  | updateSensitivity (value : ℚ)
  | updateModel (model : TranscriptionModel)
  | permissionsChecked (status : PermissionStatus)
deriving DecidableEq, Repr

/-- The `EngineEvent` enum of state.rs (lines 36-47). -/
inductive EngineEvent
  | stateChanged (state : DictationState)
  | trayStateChanged (state : TrayState)
  | overlayVisibility (visible : Bool)
  | overlayReset
  | overlayTextDelta (delta : List Char)
  | overlayWave (peak : ℚ)
  | permissionsRequired (status : PermissionStatus)
  | error (message : List Char)
deriving DecidableEq, Repr

/-- The `InjectionMessage` enum of injector.rs (lines 4-11). -/
inductive InjectionMessage
  | beginSession
  | delta (text : List Char)
  | commitSession
  | cancelSession
  | undoLast
deriving DecidableEq, Repr

/-- The `StateMachine` struct of state.rs (lines 49-53). -/
structure StateMachine where
  state : DictationState
  enabled : Bool
deriving DecidableEq, Repr, Fintype

/-- `StateMachine::new` (state.rs lines 56-63). -/
def StateMachine.new (enabled : Bool) : StateMachine :=
  { state := if enabled then .listening else .idle, enabled := enabled }

/-- `StateMachine::transition_to` (state.rs lines 133-139): returns whether the
state actually changed. -/
def StateMachine.transition_to (m : StateMachine) (next : DictationState) :
    Bool × StateMachine :=
  if m.state = next then (false, m) else (true, { m with state := next })

/-- `StateMachine::set_enabled` (state.rs lines 69-77). -/
def StateMachine.set_enabled (m : StateMachine) (enabled : Bool) :
    Bool × StateMachine :=
  let m := { m with enabled := enabled }
  m.transition_to (if enabled then .listening else .idle)

/-- `StateMachine::try_start_dictation` (state.rs lines 79-84). -/
def StateMachine.try_start_dictation (m : StateMachine) : Bool × StateMachine :=
  if !m.enabled then (false, m)
  else m.transition_to .dictating

/-- `StateMachine::try_begin_stopping` (state.rs lines 86-91). -/
def StateMachine.try_begin_stopping (m : StateMachine) : Bool × StateMachine :=
  if m.state ≠ .dictating then (false, m)
  else m.transition_to .stopping

/-- `StateMachine::finish_stopping` (state.rs lines 93-103). -/
def StateMachine.finish_stopping (m : StateMachine) : Bool × StateMachine :=
  if ¬(m.state = .stopping ∨ m.state = .dictating) then (false, m)
  else m.transition_to (if m.enabled then .listening else .idle)

/-- `StateMachine::cancel_dictation` (state.rs lines 105-115). -/
def StateMachine.cancel_dictation (m : StateMachine) : Bool × StateMachine :=
  if ¬(m.state = .dictating ∨ m.state = .stopping) then (false, m)
  else m.transition_to (if m.enabled then .listening else .idle)

/-- `StateMachine::should_route_to_wake` (state.rs lines 117-119). -/
def StateMachine.should_route_to_wake (m : StateMachine) : Bool :=
  m.enabled && m.state = .listening

/-- `StateMachine::should_route_to_dictation` (state.rs lines 121-123). -/
def StateMachine.should_route_to_dictation (m : StateMachine) : Bool :=
  m.enabled && m.state = .dictating

/-- `StateMachine::tray_state` (state.rs lines 125-131). -/
def StateMachine.tray_state (m : StateMachine) : TrayState :=
  match m.state with
  | .idle => .idle
  | .listening => .listening
  | .dictating => .dictating
  | .stopping => .dictating

/-- The five public transition methods of `StateMachine`, as an operation
alphabet for reasoning about call sequences. -/
inductive EngineOp
  | setEnabled (enabled : Bool)
  | tryStartDictation
  | tryBeginStopping
  | finishStopping
  | cancelDictation
deriving DecidableEq, Repr, Fintype

/-- Dispatch one transition method call. -/
def StateMachine.applyOp (m : StateMachine) : EngineOp → Bool × StateMachine
  | .setEnabled b => m.set_enabled b
  | .tryStartDictation => m.try_start_dictation
  | .tryBeginStopping => m.try_begin_stopping
  | .finishStopping => m.finish_stopping
  | .cancelDictation => m.cancel_dictation

/-- Run a sequence of transition method calls, keeping the final machine. -/
def StateMachine.runOps (m : StateMachine) (ops : List EngineOp) : StateMachine :=
  ops.foldl (fun m op => (m.applyOp op).2) m

/-- The `EngineCommand::TranscriptionDelta` arm of the engine loop
(mod.rs lines 181-190): the overlay delta event and the injector delta message
are emitted only in the `Dictating` and `Stopping` states. -/
def handleTranscriptionDelta (m : StateMachine) (delta : List Char) :
    List EngineEvent × List InjectionMessage :=
  if m.state = .dictating ∨ m.state = .stopping then
    ([.overlayTextDelta delta], [.delta delta])
  else ([], [])

/-! #### Claims C3, C7, C8 -/

/-- C3 (counterexample). The claim says `try_start_dictation` returns `true`
and moves to `Dictating` only from `Listening`, and returns `false` leaving the
state unchanged in any other state.  But the machine `(Stopping, enabled)` is
reachable (start enabled, start dictation, begin stopping), and from it
`try_start_dictation` returns `true` and moves the state to `Dictating`. -/
theorem try_start_dictation_from_stopping :
    (StateMachine.runOps (StateMachine.new true)
        [.tryStartDictation, .tryBeginStopping]) =
      { state := .stopping, enabled := true } ∧
    (StateMachine.try_start_dictation { state := .stopping, enabled := true }).1 = true ∧
    (StateMachine.try_start_dictation { state := .stopping, enabled := true }).2.state =
      .dictating := by
  decide

/-- C3 (amended). `try_start_dictation` returns `true` and moves the state to
`Dictating` exactly when `enabled` is `true` and the current state is not
already `Dictating` (so also from `Stopping` or `Idle`, not only from
`Listening`); otherwise it returns `false` and leaves the machine unchanged. -/
theorem try_start_dictation_spec :
    ∀ m : StateMachine,
      ((m.try_start_dictation).1 = true ↔ m.enabled = true ∧ m.state ≠ .dictating) ∧
      (m.try_start_dictation).2 =
        (if (m.try_start_dictation).1 then { m with state := .dictating } else m) := by
  decide

/-- Single-step preservation of the invariant `enabled = false → state = Idle`. -/
theorem applyOp_preserves_disabled_idle :
    ∀ (m : StateMachine) (op : EngineOp),
      (m.enabled = false → m.state = .idle) →
      ((m.applyOp op).2.enabled = false → (m.applyOp op).2.state = .idle) := by
  decide

/-- C7. In every machine reachable from `StateMachine::new` by any sequence of
the five transition methods, `enabled = false` implies `state = Idle`; hence
the engine loop's `TranscriptionDelta` arm, which emits `OverlayTextDelta` only
in the `Dictating` and `Stopping` states, emits no event while disabled. -/
theorem disabled_implies_idle_and_no_overlay_delta (b : Bool) (ops : List EngineOp)
    (h : (StateMachine.runOps (StateMachine.new b) ops).enabled = false) :
    (StateMachine.runOps (StateMachine.new b) ops).state = .idle ∧
    ∀ delta,
      (handleTranscriptionDelta (StateMachine.runOps (StateMachine.new b) ops) delta).1 =
        [] := by
  have key : ∀ (ops : List EngineOp) (m : StateMachine),
      (m.enabled = false → m.state = .idle) →
      ((StateMachine.runOps m ops).enabled = false →
        (StateMachine.runOps m ops).state = .idle) := by
    intro ops
    induction ops with
    | nil => intro m hm; exact hm
    | cons op rest ih =>
        intro m hm
        have h1 := applyOp_preserves_disabled_idle m op hm
        simpa [StateMachine.runOps] using ih (m.applyOp op).2 h1
  have hbase : (StateMachine.new b).enabled = false → (StateMachine.new b).state = .idle := by
    cases b <;> simp [StateMachine.new]
  have hidle := key ops (StateMachine.new b) hbase h
  refine ⟨hidle, ?_⟩
  intro delta
  simp [handleTranscriptionDelta, hidle]

/-- C7 (witness): disabling an enabled machine lands in `Idle` and the
`TranscriptionDelta` arm emits nothing there. -/
theorem disabled_implies_idle_and_no_overlay_delta_witness :
    (StateMachine.runOps (StateMachine.new true) [.setEnabled false]).state = .idle ∧
    (handleTranscriptionDelta
        (StateMachine.runOps (StateMachine.new true) [.setEnabled false])
        ("Hello".toList)).1 = [] := by
  have h := disabled_implies_idle_and_no_overlay_delta true [.setEnabled false] (by decide)
  exact ⟨h.1, h.2 ("Hello".toList)⟩

/-- C8. Every transition method reports `true` exactly when the stored
`DictationState` actually changed, and immediately re-issuing the same
transition returns `false` and leaves the machine (state and enabled flag)
unchanged. -/
theorem transitions_report_change_and_are_idempotent :
    ∀ (m : StateMachine) (op : EngineOp),
      ((m.applyOp op).1 = true ↔ (m.applyOp op).2.state ≠ m.state) ∧
      (m.applyOp op).2.applyOp op = (false, (m.applyOp op).2) := by
  decide

/-! ### transcriber.rs: transcript_delta (lines 201-222) -/

/-- The byte length (`a.len_utf8()` accumulation) of the longest common
character-wise prefix, as computed by the loop in transcriber.rs lines
213-219: characters are compared pairwise and the UTF-8 size of each equal
character is accumulated. -/
def prefLenBytes : List Char → List Char → Nat
  | a :: as, b :: bs => if a = b then a.utf8Size + prefLenBytes as bs else 0
  | _, _ => 0

/-- Length in characters (Unicode scalars) of the longest common prefix; this
is the claim-side measure against which `prefLenBytes` is compared. -/
def commonPrefLen : List Char → List Char → Nat
  | a :: as, b :: bs => if a = b then 1 + commonPrefLen as bs else 0
  | _, _ => 0

/-- Slicing a string at a byte offset, as in `next[prefix_len..]`
(transcriber.rs line 221): characters are skipped while their accumulated
UTF-8 size fits inside the offset.  It is only ever applied at offsets lying
on a character boundary. -/
def dropUtf8Bytes : List Char → Nat → List Char
  | s, 0 => s
  | [], _ => []
  | c :: cs, n => dropUtf8Bytes cs (n - c.utf8Size)

/-- `transcript_delta` (transcriber.rs lines 201-222).  `strip_prefix` on UTF-8
strings succeeds exactly when the pattern is a character-wise prefix, and then
returns the remaining characters, hence the `isPrefixOf`/`drop` branch. -/
def transcript_delta (previous next : List Char) : List Char :=
  if next = [] then []
  else if previous = [] then next
  else if previous.isPrefixOf next then next.drop previous.length
  else dropUtf8Bytes next (prefLenBytes previous next)

/-- Dropping `prefLenBytes previous next` bytes from `next` is the same as
dropping `commonPrefLen previous next` characters: the byte offset is the
total UTF-8 size of exactly those common characters. -/
theorem dropUtf8Bytes_prefLenBytes :
    ∀ previous next : List Char,
      dropUtf8Bytes next (prefLenBytes previous next) =
        next.drop (commonPrefLen previous next) := by
  intro previous
  induction previous with
  | nil => intro next; cases next <;> simp [prefLenBytes, commonPrefLen, dropUtf8Bytes]
  | cons a as ih =>
      intro next
      cases next with
      | nil => simp [prefLenBytes, commonPrefLen, dropUtf8Bytes]
      | cons b bs =>
          by_cases hab : a = b
          · subst hab
            have hsz : 0 < a.utf8Size := Char.utf8Size_pos a
            have hstep :
                dropUtf8Bytes (a :: bs) (a.utf8Size + prefLenBytes as bs) =
                  dropUtf8Bytes bs (prefLenBytes as bs) := by
              have hne : a.utf8Size + prefLenBytes as bs ≠ 0 := by omega
              cases hn : a.utf8Size + prefLenBytes as bs with
              | zero => exact absurd hn hne
              | succ k =>
                  simp only [dropUtf8Bytes]
                  congr 1
                  omega
            simp [prefLenBytes, commonPrefLen, hstep, ih bs, Nat.add_comm,
              List.drop_succ_cons]
          · simp [prefLenBytes, commonPrefLen, dropUtf8Bytes, hab]

/-- C5. For all strings `P` and `N`, `transcript_delta P N` returns the empty
string when `N` is empty; `N` when `P` is empty; the suffix of `N` after `P`
when `N` begins with `P`; and otherwise the suffix of `N` after the longest
common prefix of `P` and `N` measured in Unicode scalars. -/
theorem transcript_delta_spec (P N : List Char) :
    (N = [] → transcript_delta P N = []) ∧
    (N ≠ [] → P = [] → transcript_delta P N = N) ∧
    (P <+: N → transcript_delta P N = N.drop P.length) ∧
    (¬ P <+: N → transcript_delta P N = N.drop (commonPrefLen P N)) := by
  refine ⟨?_, ?_, ?_, ?_⟩
  · intro h; simp [transcript_delta, h]
  · intro hN hP; simp [transcript_delta, hN, hP]
  · intro h
    rcases eq_or_ne N [] with hN | hN
    · subst hN
      have : P = [] := List.prefix_nil.mp h
      simp [transcript_delta, this]
    · rcases eq_or_ne P [] with hP | hP
      · subst hP; simp [transcript_delta, hN]
      · have hb : P.isPrefixOf N := List.isPrefixOf_iff_prefix.mpr h
        simp [transcript_delta, hN, hP, hb]
  · intro h
    have hP : P ≠ [] := by
      rintro rfl
      exact h (List.nil_prefix)
    rcases eq_or_ne N [] with hN | hN
    · subst hN; simp [transcript_delta]
    · have hb : ¬ P.isPrefixOf N := by
        intro hc
        exact h (List.isPrefixOf_iff_prefix.mp hc)
      simp [transcript_delta, hN, hP, hb, dropUtf8Bytes_prefLenBytes]

/-- C5 (witness): the claim's own example.  `"Hello word"` is not a prefix of
`"Hello world"`; their common prefix has 9 characters and the delta is
`"ld"`. -/
theorem transcript_delta_spec_witness :
    transcript_delta ("Hello word".toList) ("Hello world".toList) = "ld".toList := by
  have h :=
    (transcript_delta_spec ("Hello word".toList) ("Hello world".toList)).2.2.2
      (by decide)
  exact h.trans (by decide)

/-- Concatenation of the deltas of a sequence of transcripts, each delta taken
against the previous transcript, starting from `previous`; this mirrors the
transcriber worker's `last_emitted` tracking (transcriber.rs lines 41, 60-68). -/
def deltaChain (previous : List Char) : List (List Char) → List Char
  | [] => []
  | n :: rest => transcript_delta previous n ++ deltaChain n rest

/-- Completing a delta against a previous transcript that is a prefix of the
next transcript recovers the next transcript. -/
theorem append_transcript_delta_completes {p n : List Char} (h : p <+: n) :
    p ++ transcript_delta p n = n := by
  rcases eq_or_ne n [] with hN | hN
  · subst hN
    have : p = [] := List.prefix_nil.mp h
    simp [this, transcript_delta]
  · rcases eq_or_ne p [] with hP | hP
    · subst hP; simp [transcript_delta, hN]
    · have hb : p.isPrefixOf n := List.isPrefixOf_iff_prefix.mpr h
      obtain ⟨t, rfl⟩ := h
      simp [transcript_delta, hN, hP, hb]

/-- Chained version: if each transcript is a prefix of the next one, the
emitted deltas concatenated onto the starting point rebuild the last
transcript. -/
theorem append_deltaChain (L : List (List Char)) :
    ∀ p : List Char, List.Chain' List.IsPrefix (p :: L) →
      p ++ deltaChain p L = L.getLastD p := by
  induction L with
  | nil => intro p _; simp [deltaChain]
  | cons n rest ih =>
      intro p h
      have hpn : p <+: n := (List.chain'_cons.mp h).1
      have hrest : List.Chain' List.IsPrefix (n :: rest) := (List.chain'_cons.mp h).2
      calc p ++ deltaChain p (n :: rest)
          = (p ++ transcript_delta p n) ++ deltaChain n rest := by
            simp [deltaChain]
        _ = n ++ deltaChain n rest := by
            rw [append_transcript_delta_completes hpn]
        _ = rest.getLastD n := ih n hrest
        _ = (n :: rest).getLastD p := (List.getLastD_cons p n rest).symm

/-- C6. For every non-empty chain of strings in which each entry is a prefix
of the next, concatenating the successive `transcript_delta`s (the first taken
against the empty string) yields the last entry of the chain. -/
theorem transcript_delta_chain_concat (L : List (List Char)) (hne : L ≠ [])
    (hchain : List.Chain' List.IsPrefix L) :
    deltaChain [] L = L.getLastD [] := by
  rcases L with _ | ⟨n, rest⟩
  · exact absurd rfl hne
  · have hc : List.Chain' List.IsPrefix (([] : List Char) :: n :: rest) :=
      List.chain'_cons.mpr ⟨List.nil_prefix, hchain⟩
    have h := append_deltaChain (n :: rest) [] hc
    simpa using h

/-- C6 (witness): the chain `"He" ⊑ "Hello" ⊑ "Hello world"` rebuilds
`"Hello world"` from its deltas. -/
theorem transcript_delta_chain_concat_witness :
    deltaChain [] ["He".toList, "Hello".toList, "Hello world".toList] =
      "Hello world".toList := by
  have h :=
    transcript_delta_chain_concat
      ["He".toList, "Hello".toList, "Hello world".toList]
      (by decide)
      (List.chain'_cons.mpr ⟨by decide,
        List.chain'_cons.mpr ⟨by decide, List.chain'_singleton _⟩⟩)
  exact h.trans (by decide)

/-! ### vad.rs: resample_mono_to_16k (lines 83-108) -/

/-- Rounding half away from zero, the behaviour of Rust's `f32::round`. -/
def roundTiesAway (q : ℚ) : Int :=
  if 0 ≤ q then ⌊q + 1 / 2⌋ else ⌈q - 1 / 2⌉

/-- The target length `((samples.len() as f32) * ratio).max(1.0) as usize` of
vad.rs line 93, with `ratio = 16000 / source_rate` (line 92); the `as usize`
cast truncates.  This is the exact-arithmetic idealization of the `f32`
computation; the rounding-faithful version is `resampleTargetLenF32` below,
and the two differ for lengths beyond the 24-bit significand. -/
def resampleTargetLen (len source_rate : Nat) : Nat :=
  (⌊max ((len : ℚ) * (16000 / (source_rate : ℚ))) 1⌋).toNat

/-- The interpolation base index `source_pos.floor() as usize` of vad.rs lines
97-98, with `source_pos = idx / ratio`.  This is the exact-arithmetic
idealization of the `f32` computation; the rounding-faithful version is
`resampleSourceIdxF32` below. -/
def resampleSourceIdx (source_rate idx : Nat) : Nat :=
  (⌊(idx : ℚ) / (16000 / (source_rate : ℚ))⌋).toNat

/-- The clamped lookahead index `(source_idx + 1).min(samples.len() - 1)` of
vad.rs line 99. -/
def resampleNextIdx (len source_rate idx : Nat) : Nat :=
  min (resampleSourceIdx source_rate idx + 1) (len - 1)

/-- `resample_mono_to_16k` (vad.rs lines 83-108), with the `f32` index
arithmetic read in exact rational arithmetic (the idealization whose limits
the `roundF32` development below makes precise).  Out-of-range reads would be
a Rust panic; the embedding uses `getD` with default `0`, and the bounds
theorem below shows that in this idealization the default is never
consulted. -/
def resample_mono_to_16k (samples : List Int) (source_rate : Nat) : List Int :=
  if source_rate = 16000 then samples
  else if samples = [] ∨ source_rate = 0 then []
  else
    let ratio : ℚ := 16000 / (source_rate : ℚ)
    (List.range (resampleTargetLen samples.length source_rate)).map (fun (idx : Nat) =>
      let source_pos : ℚ := (idx : ℚ) / ratio
      let source_idx : Nat := resampleSourceIdx source_rate idx
      let next_idx : Nat := resampleNextIdx samples.length source_rate idx
      let frac : ℚ := source_pos - (source_idx : ℚ)
      let current : ℚ := ((samples.getD source_idx 0 : Int) : ℚ)
      let next : ℚ := ((samples.getD next_idx 0 : Int) : ℚ)
      roundTiesAway (current + (next - current) * frac))

/-- C10 (amended). `resample_mono_to_16k` returns the input unchanged at
source rate 16000 and the empty vector for an empty input or source rate 0;
in the interpolation branch, under the exact-arithmetic reading of the `f32`
index computation — hence for all inputs on which the roundings involved are
exact — every index it reads is within bounds: the base index and the clamped
lookahead index are both below the input length for every position of the
output.  Under genuine IEEE-754 `f32` rounding the bound fails for very long
slices (see `resample_index_out_of_bounds_f32`). -/
theorem resample_mono_to_16k_total_spec (samples : List Int) (source_rate : Nat) :
    (source_rate = 16000 → resample_mono_to_16k samples source_rate = samples) ∧
    (samples = [] → resample_mono_to_16k samples source_rate = []) ∧
    (source_rate = 0 → resample_mono_to_16k samples source_rate = []) ∧
    (source_rate ≠ 0 → samples ≠ [] →
      ∀ idx < resampleTargetLen samples.length source_rate,
        resampleSourceIdx source_rate idx < samples.length ∧
        resampleNextIdx samples.length source_rate idx < samples.length) := by
  refine ⟨?_, ?_, ?_, ?_⟩
  · intro h; simp [resample_mono_to_16k, h]
  · intro h
    rcases eq_or_ne source_rate 16000 with h16 | h16 <;>
      simp [resample_mono_to_16k, h, h16]
  · intro h
    subst h
    simp [resample_mono_to_16k]
  · intro hrate hsamples idx hidx
    have hlen : 0 < samples.length := List.length_pos.mpr hsamples
    have hratepos : (0 : ℚ) < (source_rate : ℚ) := by
      exact_mod_cast Nat.pos_of_ne_zero hrate
    have hratio : (0 : ℚ) < 16000 / (source_rate : ℚ) := by positivity
    set ratio : ℚ := 16000 / (source_rate : ℚ) with hratio_def
    have hsource : resampleSourceIdx source_rate idx < samples.length := by
      have hx : (idx : ℚ) / ratio < (samples.length : ℚ) := by
        rcases le_or_lt 1 ((samples.length : ℚ) * ratio) with hge | hlt
        · have htl : resampleTargetLen samples.length source_rate =
              (⌊(samples.length : ℚ) * ratio⌋).toNat := by
            simp [resampleTargetLen, ← hratio_def, max_eq_left hge]
          rw [htl] at hidx
          have hfloor_nonneg : (0 : ℤ) ≤ ⌊(samples.length : ℚ) * ratio⌋ := by
            have : (0 : ℚ) ≤ (samples.length : ℚ) * ratio := by positivity
            exact Int.floor_nonneg.mpr this
          have hidx' : (idx : ℤ) < ⌊(samples.length : ℚ) * ratio⌋ := by omega
          have hle : ((idx : ℤ) + 1 : ℚ) ≤ (samples.length : ℚ) * ratio := by
            have := Int.le_floor.mp (by omega : (idx : ℤ) + 1 ≤ ⌊(samples.length : ℚ) * ratio⌋)
            exact_mod_cast this
          have hlt' : (idx : ℚ) < (samples.length : ℚ) * ratio := by
            push_cast at hle
            linarith
          rw [div_lt_iff₀ hratio]
          exact hlt'
        · have htl : resampleTargetLen samples.length source_rate = 1 := by
            have hmax : max ((samples.length : ℚ) * ratio) 1 = 1 :=
              max_eq_right (le_of_lt hlt)
            simp [resampleTargetLen, ← hratio_def, hmax]
          rw [htl] at hidx
          interval_cases idx
          have : (0 : ℚ) / ratio = 0 := zero_div _
          rw [Nat.cast_zero, this]
          exact_mod_cast hlen
      have hfl : ⌊(idx : ℚ) / ratio⌋ < (samples.length : ℤ) :=
        Int.floor_lt.mpr (by exact_mod_cast hx)
      have : resampleSourceIdx source_rate idx =
          (⌊(idx : ℚ) / ratio⌋).toNat := by
        simp [resampleSourceIdx, ← hratio_def]
      omega
    refine ⟨hsource, ?_⟩
    have : resampleNextIdx samples.length source_rate idx ≤ samples.length - 1 :=
      min_le_right _ _
    omega

/-- C10 (witness): with three samples at 8000 Hz the output has six positions,
and at the last position both interpolation indices are in bounds. -/
theorem resample_mono_to_16k_total_spec_witness :
    resampleSourceIdx 8000 5 < 3 ∧ resampleNextIdx 3 8000 5 < 3 := by
  have htl : resampleTargetLen 3 8000 = 6 := by
    rw [resampleTargetLen,
      show max (((3 : Nat) : ℚ) * (16000 / ((8000 : Nat) : ℚ))) 1 = ((6 : Nat) : ℚ) by
        push_cast; norm_num,
      Int.floor_natCast]
    rfl
  have h :=
    (resample_mono_to_16k_total_spec [10, 20, 30] 8000).2.2.2
      (by norm_num) (by simp) 5 (by simp at htl ⊢; omega)
  simpa using h

/-! #### IEEE-754 binary32 rounding, and the f32-faithful index arithmetic

The resampler's index computation is performed in `f32`.  The definitions
below model IEEE-754 binary32 round-to-nearest-even explicitly (for values in
the normal range, which covers every value arising in vad.rs lines 92-98) and
replay those lines with a rounding step after each operation, exactly as the
hardware evaluates them. -/

/-- Round a rational to the nearest integer, ties to the even integer — the
rounding IEEE-754 applies to the scaled significand. -/
def roundHalfEven (q : ℚ) : Int :=
  if q - ⌊q⌋ < 1 / 2 then ⌊q⌋
  else if 1 / 2 < q - ⌊q⌋ then ⌊q⌋ + 1
  else if ⌊q⌋ % 2 = 0 then ⌊q⌋ else ⌊q⌋ + 1

/-- The binade exponent of a positive rational: the unique `e` with
`2 ^ e ≤ x < 2 ^ (e + 1)` (valid for every `x ≥ 2 ^ (-149)`, which covers all
values in the modelled code path). -/
def floatBinade (x : ℚ) : Int :=
  (Nat.log2 (Int.toNat ⌊x * 2 ^ 149⌋) : Int) - 149

/-- Binary32 rounding of a positive rational in the normal range: the value is
scaled to its binade, where one unit in the last place of the 24-bit
significand is `2 ^ (e - 23)`, rounded to the nearest representable
significand with ties to even, and scaled back. -/
def roundF32Pos (x : ℚ) : ℚ :=
  (roundHalfEven (x / 2 ^ (floatBinade x - 23)) : ℚ) * 2 ^ (floatBinade x - 23)

/-- IEEE-754 binary32 round-to-nearest-even of a rational value, for values in
the normal range (overflow and subnormals do not arise in the modelled code
path and are not modelled). -/
def roundF32 (x : ℚ) : ℚ :=
  if x = 0 then 0
  else if 0 < x then roundF32Pos x
  else -roundF32Pos (-x)

/-- `ratio = 16_000.0f32 / source_rate as f32` (vad.rs line 92) with each
operation rounded as binary32: the `u32` cast rounds, and the division is
correctly rounded. -/
def ratioF32 (source_rate : Nat) : ℚ :=
  roundF32 (16000 / roundF32 (source_rate : ℚ))

/-- `((samples.len() as f32) * ratio).max(1.0) as usize` (vad.rs line 93) with
each operation rounded as binary32: the `usize` cast rounds, the product is
correctly rounded, `max` is exact and the final cast truncates. -/
def resampleTargetLenF32 (len source_rate : Nat) : Nat :=
  (⌊max (roundF32 (roundF32 (len : ℚ) * ratioF32 source_rate)) 1⌋).toNat

/-- `((idx as f32) / ratio).floor() as usize` (vad.rs lines 97-98) with each
operation rounded as binary32: the `usize` cast rounds, the division is
correctly rounded, and `floor` and the final cast are exact. -/
def resampleSourceIdxF32 (source_rate idx : Nat) : Nat :=
  (⌊roundF32 (roundF32 (idx : ℚ) / ratioF32 source_rate)⌋).toNat

/-- Rounding a value that is already an integer changes nothing. -/
theorem roundHalfEven_intCast (m : ℤ) : roundHalfEven ((m : ℤ) : ℚ) = m := by
  unfold roundHalfEven
  rw [Int.floor_intCast]
  norm_num

/-- The tie at `16777219 / 2 = 8388609.5`: the floor is odd, so the tie goes
up to `8388610`. -/
theorem roundHalfEven_tie_16777219 : roundHalfEven ((16777219 : ℚ) / 2) = 8388610 := by
  have hfloor : ⌊(16777219 : ℚ) / 2⌋ = 8388609 := by
    rw [show ((16777219 : ℚ) / 2) = (((16777219 : ℤ) : ℚ) / ((2 : ℕ) : ℚ)) by norm_num,
      Rat.floor_intCast_div_natCast]
    decide
  unfold roundHalfEven
  rw [hfloor]
  norm_num

/-- The tie at `33554438 / 4 = 8388609.5`: the floor is odd, so the tie goes
up to `8388610`. -/
theorem roundHalfEven_tie_33554438 : roundHalfEven ((33554438 : ℚ) / 4) = 8388610 := by
  have hfloor : ⌊(33554438 : ℚ) / 4⌋ = 8388609 := by
    rw [show ((33554438 : ℚ) / 4) = (((33554438 : ℤ) : ℚ) / ((4 : ℕ) : ℚ)) by norm_num,
      Rat.floor_intCast_div_natCast]
    decide
  unfold roundHalfEven
  rw [hfloor]
  norm_num

/-- The binade of a natural number is read off its binary bounds. -/
theorem floatBinade_natCast (n e : Nat) (h1 : 2 ^ e ≤ n) (h2 : n < 2 ^ (e + 1)) :
    floatBinade (n : ℚ) = e := by
  have hcast : (n : ℚ) * 2 ^ 149 = ((n * 2 ^ 149 : ℕ) : ℚ) := by push_cast; ring
  have hfloor : ⌊(n : ℚ) * 2 ^ 149⌋ = ((n * 2 ^ 149 : ℕ) : ℤ) := by
    rw [hcast, Int.floor_natCast]
  have hlog : Nat.log2 (n * 2 ^ 149) = e + 149 := by
    rw [Nat.log2_eq_log_two]
    refine Nat.log_eq_of_pow_le_of_lt_pow ?_ ?_
    · rw [pow_add]
      exact Nat.mul_le_mul_right _ h1
    · calc n * 2 ^ 149 < 2 ^ (e + 1) * 2 ^ 149 :=
            (Nat.mul_lt_mul_right (by positivity)).mpr h2
        _ = 2 ^ (e + 149 + 1) := by rw [← pow_add, Nat.add_right_comm]
  unfold floatBinade
  rw [hfloor, Int.toNat_natCast, hlog]
  push_cast
  omega

/-- Unfolded form of binary32 rounding at a natural number in the binade
`[2 ^ e, 2 ^ (e + 1))`. -/
theorem roundF32_natCast (n e : Nat) (h1 : 2 ^ e ≤ n) (h2 : n < 2 ^ (e + 1)) :
    roundF32 (n : ℚ) =
      (roundHalfEven ((n : ℚ) / 2 ^ ((e : ℤ) - 23)) : ℚ) * 2 ^ ((e : ℤ) - 23) := by
  have h0 : 0 < n := Nat.lt_of_lt_of_le (by positivity) h1
  unfold roundF32 roundF32Pos
  rw [if_neg (by exact_mod_cast h0.ne'), if_pos (by exact_mod_cast h0),
    floatBinade_natCast n e h1 h2]

/-- Natural numbers below `2 ^ 24` fit in the significand and round to
themselves. -/
theorem roundF32_natCast_small (n : Nat) (h0 : 0 < n) (hlt : n < 2 ^ 24) :
    roundF32 (n : ℚ) = n := by
  have h1 : 2 ^ n.log2 ≤ n := Nat.log2_self_le h0.ne'
  have h2 : n < 2 ^ (n.log2 + 1) := Nat.lt_log2_self
  have he : n.log2 ≤ 23 := by
    by_contra hc
    have : 2 ^ 24 ≤ 2 ^ n.log2 := Nat.pow_le_pow_right (by norm_num) (by omega)
    omega
  rw [roundF32_natCast n n.log2 h1 h2]
  have hk : ((n.log2 : ℤ) - 23) = -(((23 - n.log2 : ℕ) : ℤ)) := by omega
  rw [hk, zpow_neg, zpow_natCast, div_eq_mul_inv, inv_inv]
  have hmul : (n : ℚ) * 2 ^ (23 - n.log2) = (((n * 2 ^ (23 - n.log2) : ℕ) : ℤ) : ℚ) := by
    push_cast; ring
  rw [hmul, roundHalfEven_intCast]
  push_cast
  rw [mul_inv_cancel_right₀ (by positivity)]

/-- Natural numbers whose trailing zeros reach the unit in the last place of
their binade are exactly representable and round to themselves. -/
theorem roundF32_natCast_of_dvd (n e : Nat) (h1 : 2 ^ e ≤ n) (h2 : n < 2 ^ (e + 1))
    (he : 23 ≤ e) (hd : 2 ^ (e - 23) ∣ n) :
    roundF32 (n : ℚ) = n := by
  rw [roundF32_natCast n e h1 h2]
  have hk : ((e : ℤ) - 23) = (((e - 23 : ℕ) : ℤ)) := by omega
  rw [hk, zpow_natCast]
  obtain ⟨m, hm⟩ := hd
  subst hm
  have hq : (((2 ^ (e - 23) * m : ℕ) : ℚ)) / (2 : ℚ) ^ (e - 23) = (((m : ℕ) : ℤ) : ℚ) := by
    push_cast
    rw [mul_comm, mul_div_assoc, div_self (by positivity), mul_one]
  rw [hq, roundHalfEven_intCast]
  push_cast
  ring

/-- `16777219 = 2 ^ 24 + 3` is halfway between the representable neighbours
`16777218` and `16777220`; ties-to-even rounds it up to `16777220`. -/
theorem roundF32_16777219 : roundF32 ((16777219 : ℕ) : ℚ) = 16777220 := by
  rw [roundF32_natCast 16777219 24 (by norm_num) (by norm_num)]
  rw [show ((16777219 : ℕ) : ℚ) = (16777219 : ℚ) by norm_num]
  rw [show (2 : ℚ) ^ (((24 : ℕ) : ℤ) - 23) = 2 by norm_num]
  rw [roundHalfEven_tie_16777219]
  norm_num

/-- `33554438` is halfway between the representable neighbours `33554436` and
`33554440`; ties-to-even rounds it up to `33554440`. -/
theorem roundF32_33554438 : roundF32 ((33554438 : ℕ) : ℚ) = 33554440 := by
  rw [roundF32_natCast 33554438 25 (by norm_num) (by norm_num)]
  rw [show ((33554438 : ℕ) : ℚ) = (33554438 : ℚ) by norm_num]
  rw [show (2 : ℚ) ^ (((25 : ℕ) : ℤ) - 23) = 4 by norm_num]
  rw [roundHalfEven_tie_33554438]
  norm_num

/-- `33554440 = 4 * 8388610` is exactly representable in the binade of
`2 ^ 25`. -/
theorem roundF32_33554440 : roundF32 ((33554440 : ℕ) : ℚ) = ((33554440 : ℕ) : ℚ) :=
  roundF32_natCast_of_dvd 33554440 25 (by norm_num) (by norm_num) (by norm_num)
    (by norm_num)

/-- `16777220 = 2 * 8388610` is exactly representable in the binade of
`2 ^ 24`. -/
theorem roundF32_16777220 : roundF32 ((16777220 : ℕ) : ℚ) = ((16777220 : ℕ) : ℚ) :=
  roundF32_natCast_of_dvd 16777220 24 (by norm_num) (by norm_num) (by norm_num)
    (by norm_num)

/-- At 8000 Hz the ratio is computed exactly: `fl(16000 / fl(8000)) = 2`. -/
theorem ratioF32_8000 : ratioF32 8000 = 2 := by
  unfold ratioF32
  rw [roundF32_natCast_small 8000 (by norm_num) (by norm_num)]
  rw [show (16000 : ℚ) / ((8000 : ℕ) : ℚ) = ((2 : ℕ) : ℚ) by norm_num]
  rw [roundF32_natCast_small 2 (by norm_num) (by norm_num)]
  norm_num

/-- Under f32 rounding, 16777219 samples at 8000 Hz yield a target length of
33554440 (the exact-arithmetic value is 33554438). -/
theorem resampleTargetLenF32_16777219_8000 :
    resampleTargetLenF32 16777219 8000 = 33554440 := by
  unfold resampleTargetLenF32
  rw [ratioF32_8000, roundF32_16777219]
  rw [show (16777220 : ℚ) * 2 = ((33554440 : ℕ) : ℚ) by norm_num]
  rw [roundF32_33554440]
  rw [max_eq_left (by norm_num : (1 : ℚ) ≤ ((33554440 : ℕ) : ℚ))]
  rw [Int.floor_natCast, Int.toNat_natCast]

/-- Under f32 rounding, output position 33554438 at 8000 Hz reads base source
index 16777220 (the exact-arithmetic value is 16777219). -/
theorem resampleSourceIdxF32_8000_33554438 :
    resampleSourceIdxF32 8000 33554438 = 16777220 := by
  unfold resampleSourceIdxF32
  rw [ratioF32_8000, roundF32_33554438]
  rw [show (33554440 : ℚ) / 2 = ((16777220 : ℕ) : ℚ) by norm_num]
  rw [roundF32_16777220]
  rw [Int.floor_natCast, Int.toNat_natCast]

/-- C10 (counterexample).  The claim asserts that no out-of-range access
occurs for any sample slice and rate.  Replaying the `f32` index arithmetic
of vad.rs lines 92-98 with IEEE-754 binary32 rounding: for a slice of
16777219 (`2 ^ 24 + 3`) samples at source rate 8000, `len as f32` rounds up to
16777220, making `target_len = 33554440`; the loop therefore reaches
`idx = 33554438`, whose `idx as f32` rounds up to 33554440, giving
`source_pos = 16777220.0` and base index `source_idx = 16777220 ≥ 16777219` —
so `samples[source_idx]` at vad.rs line 101 is an out-of-range access (a Rust
panic), which the exact-rational reading (`resampleSourceIdx`,
`resampleTargetLen`) wrongly rules out. -/
theorem resample_index_out_of_bounds_f32 :
    resampleTargetLenF32 16777219 8000 = 33554440 ∧
    33554438 < resampleTargetLenF32 16777219 8000 ∧
    resampleSourceIdxF32 8000 33554438 = 16777220 ∧
    ¬(resampleSourceIdxF32 8000 33554438 < 16777219) := by
  refine ⟨resampleTargetLenF32_16777219_8000, ?_, resampleSourceIdxF32_8000_33554438, ?_⟩
  · rw [resampleTargetLenF32_16777219_8000]; norm_num
  · rw [resampleSourceIdxF32_8000_33554438]; norm_num

/-! ### transcriber.rs: the worker loop (lines 25-99) -/

/-- The `TranscriberMessage` enum of transcriber.rs (lines 16-23).  The Rust
variant `End` is a Lean keyword, so it is spelled `msgEnd` here. -/
inductive TranscriberMessage
  | begin
  | audio (frame : AudioFrame)
  | msgEnd
  | cancel
  | updateModel (model : TranscriptionModel)
deriving DecidableEq, Repr

/-- The worker's mutable locals `session_audio` and `last_emitted`
(transcriber.rs lines 40-41).  `last_decode_at` is a wall-clock value; the
timing comparison it feeds is the oracle `decodeDue` below. -/
structure TranscriberState where
  session_audio : List Int
  last_emitted : List Char
deriving DecidableEq, Repr

/-- One iteration of the transcriber worker's message loop (transcriber.rs
lines 44-97), returning the engine commands sent on the channel and the
updated locals.  `transcribe` is the whisper decode
`TranscriberRuntime::transcribe` (arguments: accumulated session audio and the
`finalize` flag), `reloadOk` tells whether `reload_model` succeeded, and
`decodeDue` is the `last_decode_at.elapsed() < 350ms` timing test of line 53
(`true` when at least 350 ms have elapsed). -/
def handleTranscriberMessage (transcribe : List Int → Bool → Except Unit (List Char))
    (reloadOk : Bool) (decodeDue : Bool) (st : TranscriberState) :
    TranscriberMessage → List EngineCommand × TranscriberState
  | .begin => ([], { session_audio := [], last_emitted := [] })
  | .audio frame =>
      let st := { st with
        session_audio :=
          st.session_audio ++ resample_mono_to_16k frame.samples frame.sample_rate }
      if ¬decodeDue then ([], st)
      else if st.session_audio.length < 3200 then ([], st)
      else
        match transcribe st.session_audio false with
        | .ok text =>
            let delta := transcript_delta st.last_emitted text
            ((if delta ≠ [] then [.transcriptionDelta delta] else []),
              { st with last_emitted := text })
        | .error _ => ([], st)
  | .msgEnd =>
      let deltaCmds : List EngineCommand :=
        match transcribe st.session_audio true with
        | .ok text =>
            let delta := transcript_delta st.last_emitted text
            if delta ≠ [] then [.transcriptionDelta delta] else []
        | .error _ => []
      (deltaCmds ++ [.transcriptionFinished],
        { session_audio := [], last_emitted := [] })
  | .cancel =>
      ([.transcriptionFinished], { session_audio := [], last_emitted := [] })
  | .updateModel _ =>
      if ¬reloadOk then ([], st)
      else ([], { session_audio := [], last_emitted := [] })

/-- C9. Handling an `End` message sends exactly one `TranscriptionFinished`
command, whether the final decode succeeds or fails; handling a `Cancel`
message sends exactly the single command `TranscriptionFinished`, and its
outcome does not depend on the decoder at all (no decode is attempted). -/
theorem transcriber_end_cancel_finished_spec
    (transcribe : List Int → Bool → Except Unit (List Char))
    (reloadOk decodeDue : Bool) (st : TranscriberState) :
    ((handleTranscriberMessage transcribe reloadOk decodeDue st .msgEnd).1.count
        .transcriptionFinished = 1) ∧
    ((handleTranscriberMessage transcribe reloadOk decodeDue st .cancel).1 =
        [.transcriptionFinished]) ∧
    (∀ transcribe₂ : List Int → Bool → Except Unit (List Char),
      handleTranscriberMessage transcribe₂ reloadOk decodeDue st .cancel =
        handleTranscriberMessage transcribe reloadOk decodeDue st .cancel) := by
  refine ⟨?_, rfl, fun transcribe₂ => rfl⟩
  cases h : transcribe st.session_audio true with
  | ok text =>
      by_cases hd : transcript_delta st.last_emitted text = [] <;>
        simp [handleTranscriberMessage, h, hd, List.count_cons, List.count_append]
  | error e =>
      simp [handleTranscriberMessage, h]

/-! ### audio.rs: push_mono_samples (lines 190-236) -/

/-- Fueled splitting of a slice into consecutive chunks of `n` elements (the
last one possibly shorter), as `input.chunks(n)` in audio.rs line 204.  Each
step consumes at least one element when `n ≥ 1`, so fuel equal to the list
length (as passed by `chunksOf`) always suffices; the fuel-exhausted arm is
unreachable then. -/
def chunksOfFuel (n : Nat) : Nat → List Int → List (List Int)
  | _, [] => []
  | 0, _ => []
  | fuel + 1, l => l.take n :: chunksOfFuel n fuel (l.drop n)

/-- `input.chunks(n)` for a slice modelled as a list. -/
def chunksOf (n : Nat) (l : List Int) : List (List Int) :=
  chunksOfFuel n l.length l

/-- The channel-averaging loop of `push_mono_samples` (audio.rs lines
202-218): each frame of `channels.max(1)` interleaved samples is converted to
`i16` and averaged with truncating `i32` division; empty frames are skipped
(the `count == 0` guard). -/
def monoMix (channels : Nat) (convert : Int → Int) (input : List Int) : List Int :=
  (chunksOf (max channels 1) input).filterMap (fun frame =>
    let acc : Int := (frame.map convert).sum
    let count : Int := (frame.length : Int)
    if count = 0 then none else some (acc.tdiv count))

/-- The peak computation of audio.rs lines 225-228:
`frame.iter().map(|s| (*s as f32).abs() / i16::MAX as f32).fold(0.0, f32::max)`. -/
def computePeak (frame : List Int) : ℚ :=
  (frame.map (fun (s : Int) => |(s : ℚ)| / 32767)).foldl max 0

/-- The peak formula as the spec states it: the maximum of `|sample|` over the
frame (0 for an empty frame), divided by 32767. -/
def specPeak (frame : List Int) : ℚ :=
  ((frame.map (fun (s : Int) => |(s : ℚ)|)).foldl max 0) / 32767

/-- The frame-draining loop of audio.rs lines 223-235: while the buffer holds
at least `frame_samples` samples, the first `frame_samples` are drained into an
emitted frame.  Each iteration removes `frame_samples ≥ 1` elements, so fuel
equal to the buffer length (as passed by `drainFrames`) always suffices; the
`0 < frame_samples` guard reflects that the Rust loop does not terminate when
`frame_samples = 0`. -/
def drainFramesFuel (frame_samples : Nat) : Nat → List Int → List (List Int) × List Int
  | 0, buf => ([], buf)
  | fuel + 1, buf =>
      if 0 < frame_samples ∧ frame_samples ≤ buf.length then
        let (frames, rest) := drainFramesFuel frame_samples fuel (buf.drop frame_samples)
        (buf.take frame_samples :: frames, rest)
      else ([], buf)

/-- Drain as many full frames as possible from the buffer. -/
def drainFrames (frame_samples : Nat) (buf : List Int) :
    List (List Int) × List Int :=
  drainFramesFuel frame_samples buf.length buf

/-- `push_mono_samples` (audio.rs lines 190-236): mixes the interleaved input
down to mono, appends it to the shared sample buffer, and emits one
`AudioFrame` (with its peak) per `frame_samples` drained samples.  Returns the
emitted frames and the remaining buffer. -/
def push_mono_samples (channels sample_rate frame_samples : Nat)
    (convert : Int → Int) (sample_buffer input : List Int) :
    List AudioFrame × List Int :=
  let mono := monoMix channels convert input
  let guard := sample_buffer ++ mono
  let (frames, rest) := drainFrames frame_samples guard
  (frames.map (fun f =>
      { samples := f, sample_rate := sample_rate, peak := computePeak f }),
    rest)

/-- Elements of chunks are elements of the original list. -/
theorem mem_of_mem_chunksOfFuel (n : Nat) :
    ∀ (fuel : Nat) (l c : List Int), c ∈ chunksOfFuel n fuel l →
      ∀ x ∈ c, x ∈ l := by
  intro fuel
  induction fuel with
  | zero => intro l c hc; cases l <;> simp [chunksOfFuel] at hc
  | succ fuel ih =>
      intro l c hc x hx
      cases l with
      | nil => simp [chunksOfFuel] at hc
      | cons a as =>
          simp only [chunksOfFuel, List.mem_cons] at hc
          rcases hc with rfl | hc
          · exact List.take_subset n (a :: as) hx
          · exact List.drop_subset n (a :: as) (ih _ c hc x hx)

/-- Triangle inequality for `natAbs` over a list sum. -/
theorem natAbs_sum_le (l : List Int) (B : Nat) (h : ∀ x ∈ l, x.natAbs ≤ B) :
    (l.sum).natAbs ≤ l.length * B := by
  induction l with
  | nil => simp
  | cons a as ih =>
      have ha := h a (List.mem_cons_self a as)
      have has : ∀ x ∈ as, x.natAbs ≤ B := fun x hx => h x (List.mem_cons_of_mem a hx)
      calc (a + as.sum).natAbs ≤ a.natAbs + (as.sum).natAbs := Int.natAbs_add_le _ _
        _ ≤ B + as.length * B := Nat.add_le_add ha (ih has)
        _ = (as.length + 1) * B := by ring
        _ = (a :: as).length * B := by simp

/-- Every mono-mixed sample is the truncating average of converted `i16`
samples, hence at most 32768 in absolute value when the converted samples are
in the `i16` range. -/
theorem natAbs_le_of_mem_monoMix (channels : Nat) (convert : Int → Int)
    (input : List Int)
    (hconv : ∀ t ∈ input, -32768 ≤ convert t ∧ convert t ≤ 32767) :
    ∀ x ∈ monoMix channels convert input, x.natAbs ≤ 32768 := by
  intro x hx
  simp only [monoMix, List.mem_filterMap] at hx
  obtain ⟨frame, hframe, heq⟩ := hx
  by_cases hcount : ((frame.length : Int) = 0)
  · simp [hcount] at heq
  · simp only [hcount, if_false, Option.some.injEq] at heq
    have hlen : frame.length ≠ 0 := by
      intro h0
      exact hcount (by exact_mod_cast h0)
    have hmem : ∀ t ∈ frame, t ∈ input :=
      mem_of_mem_chunksOfFuel (max channels 1) input.length input frame hframe
    have hB : ∀ y ∈ frame.map convert, y.natAbs ≤ 32768 := by
      intro y hy
      obtain ⟨t, ht, rfl⟩ := List.mem_map.mp hy
      have := hconv t (hmem t ht)
      omega
    have hsum : ((frame.map convert).sum).natAbs ≤ frame.length * 32768 := by
      have := natAbs_sum_le (frame.map convert) 32768 hB
      simpa using this
    have : x.natAbs = ((frame.map convert).sum).natAbs / frame.length := by
      rw [← heq, Int.natAbs_tdiv]
      rfl
    rw [this]
    calc ((frame.map convert).sum).natAbs / frame.length
        ≤ (frame.length * 32768) / frame.length := Nat.div_le_div_right hsum
      _ = 32768 := Nat.mul_div_cancel_left _ (Nat.pos_of_ne_zero hlen)

/-- Elements of drained frames are elements of the buffer. -/
theorem mem_of_mem_drainFramesFuel (frame_samples : Nat) :
    ∀ (fuel : Nat) (buf f : List Int),
      f ∈ (drainFramesFuel frame_samples fuel buf).1 → ∀ x ∈ f, x ∈ buf := by
  intro fuel
  induction fuel with
  | zero => intro buf f hf; simp [drainFramesFuel] at hf
  | succ fuel ih =>
      intro buf f hf x hx
      by_cases hc : 0 < frame_samples ∧ frame_samples ≤ buf.length
      · simp only [drainFramesFuel, if_pos hc, List.mem_cons] at hf
        rcases hf with rfl | hf
        · exact List.take_subset frame_samples buf hx
        · exact List.drop_subset frame_samples buf (ih _ f hf x hx)
      · simp [drainFramesFuel, if_neg hc] at hf

/-- Folding `max` only grows the accumulator. -/
theorem le_foldl_max (l : List ℚ) : ∀ a : ℚ, a ≤ l.foldl max a := by
  induction l with
  | nil => intro a; simp
  | cons x xs ih =>
      intro a
      exact le_trans (le_max_left a x) (ih (max a x))

/-- Folding `max` stays below any common upper bound. -/
theorem foldl_max_le (l : List ℚ) :
    ∀ a B : ℚ, a ≤ B → (∀ x ∈ l, x ≤ B) → l.foldl max a ≤ B := by
  induction l with
  | nil => intro a B ha _; simpa using ha
  | cons x xs ih =>
      intro a B ha hl
      have hx : x ≤ B := hl x (List.mem_cons_self x xs)
      exact ih (max a x) B (max_le ha hx) fun y hy =>
        hl y (List.mem_cons_of_mem x hy)

/-- Division by the positive constant commutes with the running maximum. -/
theorem foldl_max_div (c : ℚ) (hc : 0 < c) (l : List ℚ) :
    ∀ a : ℚ, (l.map (· / c)).foldl max (a / c) = (l.foldl max a) / c := by
  induction l with
  | nil => intro a; simp
  | cons x xs ih =>
      intro a
      have hmax : max (a / c) (x / c) = max a x / c := by
        rcases le_total a x with h | h
        · rw [max_eq_right h, max_eq_right ((div_le_div_iff_of_pos_right hc).mpr h)]
        · rw [max_eq_left h, max_eq_left ((div_le_div_iff_of_pos_right hc).mpr h)]
      simp only [List.map_cons, List.foldl_cons, hmax, ih]

/-- The computed peak is exactly the spec's formula
`max(|sample|) / 32767`. -/
theorem computePeak_eq_specPeak (frame : List Int) :
    computePeak frame = specPeak frame := by
  have h := foldl_max_div 32767 (by norm_num)
      (frame.map (fun (s : Int) => |(s : ℚ)|)) 0
  rw [List.map_map] at h
  simp only [Function.comp_def] at h
  rw [zero_div] at h
  exact h

/-! #### Claim C1 -/

/-- C1 (amended). For every `AudioFrame` emitted by `push_mono_samples` (the
frames Audio Capture sends), provided the buffered and converted samples lie
in the `i16` range, the `peak` field equals the spec's formula
`max(|sample|) / 32767` (0 for an empty frame) and lies in the interval
`[0, 32768/32767]`.  The upper end exceeds 1: a sample of `-32768`
(`i16::MIN`) has `|sample| = 32768`, so the peak is then `32768/32767 > 1`. -/
theorem push_mono_samples_peak_spec
    (channels sample_rate frame_samples : Nat) (convert : Int → Int)
    (sample_buffer input : List Int)
    (hbuf : ∀ x ∈ sample_buffer, -32768 ≤ x ∧ x ≤ 32767)
    (hconv : ∀ t ∈ input, -32768 ≤ convert t ∧ convert t ≤ 32767) :
    ∀ af ∈ (push_mono_samples channels sample_rate frame_samples convert
        sample_buffer input).1,
      af.peak = specPeak af.samples ∧
      0 ≤ af.peak ∧ af.peak ≤ 32768 / 32767 := by
  intro af haf
  simp only [push_mono_samples, List.mem_map] at haf
  obtain ⟨f, hf, rfl⟩ := haf
  have hmem : ∀ x ∈ f, x ∈ sample_buffer ++ monoMix channels convert input :=
    mem_of_mem_drainFramesFuel frame_samples _ _ f hf
  have hrange : ∀ x ∈ f, x.natAbs ≤ 32768 := by
    intro x hx
    rcases List.mem_append.mp (hmem x hx) with hb | hm
    · have := hbuf x hb; omega
    · exact natAbs_le_of_mem_monoMix channels convert input hconv x hm
  refine ⟨computePeak_eq_specPeak f, le_foldl_max _ 0, ?_⟩
  show computePeak f ≤ 32768 / 32767
  refine foldl_max_le _ 0 _ (by norm_num) ?_
  intro q hq
  obtain ⟨x, hx, rfl⟩ := List.mem_map.mp hq
  have habs : |((x : ℚ))| ≤ 32768 := by
    rw [← Int.cast_abs]
    have h1 : |x| ≤ (32768 : Int) := by
      rw [Int.abs_eq_natAbs]
      have := hrange x hx
      omega
    exact_mod_cast h1
  have h32767 : (0 : ℚ) < 32767 := by norm_num
  exact (div_le_div_iff_of_pos_right h32767).mpr habs

/-- C1 (counterexample).  The claim asserts the peak always lies in
`[0.0, 1.0]`, but a frame holding the single sample `-32768` (a legal `i16`
produced unchanged by the identity conversion of the `i16` input stream) is
emitted with peak `32768/32767`, which is greater than 1. -/
theorem push_mono_samples_peak_gt_one :
    ((push_mono_samples 1 16000 1 (fun s => s) [] [-32768]).1.map AudioFrame.peak =
      [32768 / 32767]) ∧ ¬((32768 : ℚ) / 32767 ≤ 1) := by
  constructor
  · have hframes : (push_mono_samples 1 16000 1 (fun s => s) [] [-32768]).1 =
        [{ samples := [-32768], sample_rate := 16000,
           peak := computePeak [-32768] }] := rfl
    rw [hframes]
    have hpeak : computePeak [-32768] = 32768 / 32767 := by
      show max 0 (|((-32768 : Int) : ℚ)| / 32767) = 32768 / 32767
      rw [show ((-32768 : Int) : ℚ) = -32768 by norm_num]
      rw [show |(-32768 : ℚ)| = 32768 by rw [abs_of_nonpos (by norm_num)]; norm_num]
      rw [max_eq_right (by positivity)]
    simp [hpeak]
  · norm_num

/-- C1 (witness): a stereo input at 48 kHz mixes to the mono frame
`[150, 350]`, whose peak satisfies the amended bounds. -/
theorem push_mono_samples_peak_spec_witness :
    (AudioFrame.mk [150, 350] 48000 (computePeak [150, 350])).peak =
      specPeak [150, 350] ∧
    0 ≤ (AudioFrame.mk [150, 350] 48000 (computePeak [150, 350])).peak ∧
    (AudioFrame.mk [150, 350] 48000 (computePeak [150, 350])).peak ≤
      32768 / 32767 := by
  have hframes : (push_mono_samples 2 48000 2 (fun s => s) [] [100, 200, 300, 400]).1 =
      [AudioFrame.mk [150, 350] 48000 (computePeak [150, 350])] := rfl
  have hmem : AudioFrame.mk [150, 350] 48000 (computePeak [150, 350]) ∈
      (push_mono_samples 2 48000 2 (fun s => s) [] [100, 200, 300, 400]).1 := by
    rw [hframes]
    exact List.mem_singleton.mpr rfl
  exact push_mono_samples_peak_spec 2 48000 2 (fun s => s) [] [100, 200, 300, 400]
    (by simp) (by decide) _ hmem

/-! ### wake_word.rs: the detector and the wake listener loop -/

/-- The mutable state of `PorcupineDetector` (wake_word.rs lines 108-116)
relevant to `process_frame`: the configured native frame length, the pending
sample buffer, and — as instrumentation for the native oracle — the number of
`pv_porcupine_process` calls made so far. -/
structure PorcupineDetector where
  frame_length : Nat
  frame_buffer : List Int
  calls : Nat
deriving DecidableEq, Repr

/-- The chunk loop of `PorcupineDetector::process_frame` (wake_word.rs lines
205-216): while the buffer holds a full native frame, the native `process`
routine is invoked (modelled by the oracle `process`, mapping the call index
to the returned status and detection flag), the consumed frame is drained,
a non-zero status aborts with an error, and a detection returns `true`.
Each iteration removes `frame_length ≥ 1` samples, so fuel equal to the
buffer length (as passed by `process_frame`) always suffices; the
`0 < frame_length` guard reflects that the Rust loop does not terminate when
`frame_length = 0`. -/
def processChunksFuel (process : Nat → Int × Bool) (frame_length : Nat) :
    Nat → List Int → Nat → (Except Int Bool) × List Int × Nat
  | 0, buf, calls => (.ok false, buf, calls)
  | fuel + 1, buf, calls =>
      if 0 < frame_length ∧ frame_length ≤ buf.length then
        let (status, detected) := process calls
        let rest := buf.drop frame_length
        if status ≠ 0 then (.error status, rest, calls + 1)
        else if detected then (.ok true, rest, calls + 1)
        else processChunksFuel process frame_length fuel rest (calls + 1)
      else (.ok false, buf, calls)

/-- `PorcupineDetector::process_frame` (wake_word.rs lines 201-219): resample
the incoming frame to 16 kHz, append it to the pending buffer, and run the
native chunk loop. -/
def PorcupineDetector.process_frame (process : Nat → Int × Bool)
    (d : PorcupineDetector) (frame : AudioFrame) :
    (Except Int Bool) × PorcupineDetector :=
  let resampled := resample_mono_to_16k frame.samples frame.sample_rate
  let buf := d.frame_buffer ++ resampled
  let (result, rest, calls) :=
    processChunksFuel process d.frame_length buf.length buf d.calls
  (result, { d with frame_buffer := rest, calls := calls })

/-- The wake listener's receive loop (wake_word.rs lines 76-80): for each
received frame, `process_frame`'s result is collapsed with `unwrap_or(false)`
and a `WakeDetected` command is sent on detection.  Returns the commands sent
over the whole input sequence. -/
def wakeListenerLoop (process : Nat → Int × Bool) :
    PorcupineDetector → List AudioFrame → List EngineCommand
  | _, [] => []
  | d, frame :: rest =>
      let (result, d') := d.process_frame process frame
      (if (match result with | .ok b => b | .error _ => false) then
        [EngineCommand.wakeDetected] else []) ++ wakeListenerLoop process d' rest

/-! #### Claim C2 -/

/-- C2 (counterexample).  The claim says that after a non-zero native process
status the wake worker terminates and never sends another `WakeDetected`.
Concretely: with native frame length 2, an oracle whose first call fails with
status 1 and whose second call detects the keyword, the first frame's
`process_frame` fails with an error — yet the loop goes on and sends a
`WakeDetected` for the second frame. -/
theorem wake_listener_detects_after_process_error :
    (PorcupineDetector.process_frame
        (fun k => if k = 0 then ((1 : Int), false) else (0, true))
        { frame_length := 2, frame_buffer := [], calls := 0 }
        { samples := [10, 20], sample_rate := 16000, peak := 0 }).1 =
      .error 1 ∧
    wakeListenerLoop (fun k => if k = 0 then ((1 : Int), false) else (0, true))
        { frame_length := 2, frame_buffer := [], calls := 0 }
        [{ samples := [10, 20], sample_rate := 16000, peak := 0 },
         { samples := [30, 40], sample_rate := 16000, peak := 0 }] =
      [EngineCommand.wakeDetected] := by
  constructor <;> rfl

/-- C2 (amended). When `process_frame` fails (in particular when the native
process routine returns a non-zero status), the wake worker sends no command
for that frame, swallows the error via `unwrap_or(false)`, and keeps
processing the remaining frames with the updated detector state; it neither
terminates itself nor disables wake detection. -/
theorem wake_listener_continues_after_process_error
    (process : Nat → Int × Bool) (d : PorcupineDetector) (frame : AudioFrame)
    (rest : List AudioFrame) (status : Int)
    (herr : (d.process_frame process frame).1 = .error status) :
    wakeListenerLoop process d (frame :: rest) =
      wakeListenerLoop process (d.process_frame process frame).2 rest := by
  simp [wakeListenerLoop, herr]

/-- C2 (witness): the counterexample's first frame errors, and the loop on
both frames equals the loop on the remaining frame from the updated state. -/
theorem wake_listener_continues_after_process_error_witness :
    wakeListenerLoop (fun k => if k = 0 then ((1 : Int), false) else (0, true))
        { frame_length := 2, frame_buffer := [], calls := 0 }
        [{ samples := [10, 20], sample_rate := 16000, peak := 0 },
         { samples := [30, 40], sample_rate := 16000, peak := 0 }] =
      wakeListenerLoop (fun k => if k = 0 then ((1 : Int), false) else (0, true))
        ((PorcupineDetector.process_frame
            (fun k => if k = 0 then ((1 : Int), false) else (0, true))
            { frame_length := 2, frame_buffer := [], calls := 0 }
            { samples := [10, 20], sample_rate := 16000, peak := 0 }).2)
        [{ samples := [30, 40], sample_rate := 16000, peak := 0 }] :=
  wake_listener_continues_after_process_error
    (fun k => if k = 0 then ((1 : Int), false) else (0, true))
    { frame_length := 2, frame_buffer := [], calls := 0 }
    { samples := [10, 20], sample_rate := 16000, peak := 0 }
    [{ samples := [30, 40], sample_rate := 16000, peak := 0 }]
    1 (by rfl)

/-! ### mod.rs: audio-capture restart and the UpdateMicrophone arm -/

/-- Rust `str::trim`: leading and trailing whitespace removed. -/
def trimChars (s : List Char) : List Char :=
  ((s.dropWhile Char.isWhitespace).reverse.dropWhile Char.isWhitespace).reverse

/-- The error message published by `try_start_audio_capture`
(mod.rs lines 280-283). -/
def audioCaptureErrorMessage : List Char :=
  ("Unable to start microphone stream; check microphone permission and " ++
    "selected device.").toList

/-- `try_start_audio_capture` (mod.rs lines 266-287): an empty or
whitespace-only preferred name means no preference; `AudioCapture::start` is
external `cpal` code, modelled by the oracle `start` telling whether the
stream starts for the requested device.  Returns the capture handle (if any)
and the events published. -/
def try_start_audio_capture (start : Option (List Char) → Bool)
    (preferred_microphone : List Char) : Option Unit × List EngineEvent :=
  let preferred : Option (List Char) :=
    if trimChars preferred_microphone = [] then none else some preferred_microphone
  if start preferred then (some (), [])
  else (none, [.error audioCaptureErrorMessage])

/-- The engine loop's audio-capture locals (mod.rs lines 140-145):
the preferred microphone name and the current capture handle. -/
structure EngineAudioState where
  preferred_microphone : List Char
  audio_capture : Option Unit
deriving DecidableEq, Repr

/-- The `EngineCommand::UpdateMicrophone` arm of the engine loop (mod.rs lines
224-231): store the new preferred name, then drop the running capture and
start a new one via `try_start_audio_capture`.  Note: this arm (and the send
in mod.rs line 101) names `EngineCommand::UpdateMicrophone`, a variant that
the `EngineCommand` declaration in state.rs lines 20-34 does not contain, so
the crate as given does not compile; the arm is embedded on its own against
the intended variant payload (a string). -/
def handleUpdateMicrophone (start : Option (List Char) → Bool)
    (st : EngineAudioState) (microphone : List Char) :
    EngineAudioState × List EngineEvent :=
  let preferred_microphone := microphone
  let (audio_capture, events) := try_start_audio_capture start preferred_microphone
  ({ preferred_microphone := preferred_microphone, audio_capture := audio_capture },
    events)

/-! #### Claim C4 -/

/-- C4. The handler of the engine loop's `UpdateMicrophone(name)` arm replaces
the preferred device with `name` and restarts audio capture with it,
discarding whatever capture was previously held: on successful start the new
capture handle is installed and no event is published; on failure no capture
is held and exactly the `Error` event is published.  (The other half of the
claim — that the declared `EngineCommand` type includes an
`UpdateMicrophone(String)` variant — fails: state.rs lines 20-34 omit it even
though mod.rs lines 101 and 224 use it, so the crate does not compile.) -/
theorem updateMicrophone_handler_spec (start : Option (List Char) → Bool)
    (st : EngineAudioState) (microphone : List Char) :
    ((handleUpdateMicrophone start st microphone).1.preferred_microphone =
      microphone) ∧
    ((handleUpdateMicrophone start st microphone).1.audio_capture =
      if start (if trimChars microphone = [] then none else some microphone)
      then some () else none) ∧
    ((handleUpdateMicrophone start st microphone).2 =
      if start (if trimChars microphone = [] then none else some microphone)
      then [] else [.error audioCaptureErrorMessage]) ∧
    (∀ st₂ : EngineAudioState,
      handleUpdateMicrophone start st microphone =
        handleUpdateMicrophone start st₂ microphone) := by
  refine ⟨rfl, ?_, ?_, fun st₂ => rfl⟩ <;>
    by_cases h : start (if trimChars microphone = [] then none else some microphone) <;>
      simp [handleUpdateMicrophone, try_start_audio_capture, h]

end LumiType
